import Mathlib

/-!
Verification of the RAG backend core (chunking algorithm, embedding gateway
and vector index adapter) against its natural-language specification.

The chunker and the embedding gateway are shallowly embedded from
src/server/document_processor.py; the vector store wrapper is embedded from
src/server/vector_store.py over a model of the backing collection.
Strings are modelled as lists of characters and the Python cursor, which can
become negative, as an integer.
-/

set_option maxRecDepth 100000

/-- Python index normalisation for slices and for str.rfind bounds: a negative
index counts from the end of the string (clamped at 0), a nonnegative index is
clamped at the length. -/
def pyNorm (L : Nat) (i : Int) : Nat :=
  if i < 0 then (L + i).toNat else min i.toNat L

/-- Python slice s[a:b] over a list of characters. -/
def pySlice (s : List Char) (a b : Int) : List Char :=
  (s.take (pyNorm s.length b)).drop (pyNorm s.length a)

/-- Python slice s[a:] over a list of characters. -/
def pySliceFrom (s : List Char) (a : Int) : List Char :=
  s.drop (pyNorm s.length a)

/-- One left-to-right pass recording the last position i with s[i] = c and
na <= i < nb; the accumulator keeps the best answer so far, so the final
value is the highest matching index, as str.rfind returns. -/
def rfindGo (c : Char) (na nb : Nat) : List Char → Nat → Int → Int
  | [], _, acc => acc
  | x :: xs, i, acc =>
      rfindGo c na nb xs (i + 1) (if x = c ∧ na ≤ i ∧ i < nb then (i : Int) else acc)

/-- Python str.rfind(c, a, b): the highest index i in the normalised range
with s[i] = c, or -1 when there is none. -/
def pyRfind (s : List Char) (c : Char) (a b : Int) : Int :=
  rfindGo c (pyNorm s.length a) (pyNorm s.length b) s 0 (-1)

/-- The while loop of DocumentProcessor.chunk_document, embedded with explicit
fuel; the Python loop has no a priori termination measure (and indeed does not
always terminate), so the embedding returns none when the fuel runs out. -/
def chunkLoop (chunkSize overlap : Nat) (content : List Char) :
    Int → Nat → Option (List (List Char))
  | _, 0 => none
  | start, fuel + 1 =>
    if start < (content.length : Int) then
      let e : Int := start + chunkSize
      if (content.length : Int) ≤ e then
        some [pySliceFrom content start]
      else
        let lastPeriod := pyRfind content '.' start e
        let lastNewline := pyRfind content '\n' start e
        let sp0 := max lastPeriod lastNewline
        let sp := if sp0 = -1 ∨ sp0 ≤ start then e else sp0
        match chunkLoop chunkSize overlap content (sp - overlap) fuel with
        | none => none
        | some rest => some (pySlice content start sp :: rest)
    else
      some []

/-- DocumentProcessor.chunk_document: split content into overlapping chunks,
starting the cursor at 0.  The processor is constructed with chunk_size 1000
and chunk_overlap 200; the sizes are kept as parameters. -/
def chunk_document (chunkSize overlap : Nat) (content : List Char) (fuel : Nat) :
    Option (List (List Char)) :=
  chunkLoop chunkSize overlap content 0 fuel

/-- Default chunk size set in the DocumentProcessor constructor. -/
def defaultChunkSize : Nat := 1000

/-- Default chunk overlap set in the DocumentProcessor constructor. -/
def defaultChunkOverlap : Nat := 200

/-- DocumentProcessor.generate_embeddings: one provider request per text, in
order; the first provider failure aborts the whole call and is re-raised, so
no partial result escapes.  The provider call (client.embeddings.create plus
extraction of response.data[0].embedding) is abstracted as a function from the
text to either an embedding vector or an error. -/
def generate_embeddings {E : Type} (provider : String → Except E (List ℚ)) :
    List String → Except E (List (List ℚ))
  | [] => .ok []
  | t :: ts =>
    match provider t with
    | .error e => .error e
    | .ok v =>
      match generate_embeddings provider ts with
      | .error e => .error e
      | .ok vs => .ok (v :: vs)

/-- Metadata attached to a stored chunk, as assembled by
process_markdown_file. -/
structure ChunkMeta where
  source : String
  chunk_index : Nat
  last_updated : String
deriving DecidableEq

/-- A persisted record of the collection: id, embedding vector, chunk text and
metadata. -/
structure ChunkRecord where
  id : String
  embedding : List ℚ
  document : String
  metadata : ChunkMeta
deriving DecidableEq

/-- Error taxonomy of the store layer, from the specification. -/
inductive StoreErr where
  | validationError
  | notFoundError
deriving DecidableEq

/-- Build the records to be written from parallel id, embedding, document and
metadata lists. -/
def mkRecords : List String → List (List ℚ) → List String → List ChunkMeta →
    List ChunkRecord
  | i :: is, v :: vs, d :: ds, m :: ms => ⟨i, v, d, m⟩ :: mkRecords is vs ds ms
  | _, _, _, _ => []

/-- Insert one record, overwriting in place when its id is already present. -/
def upsertOne (coll : List ChunkRecord) (r : ChunkRecord) : List ChunkRecord :=
  if coll.any (fun x => x.id = r.id) then
    coll.map (fun x => if x.id = r.id then r else x)
  else
    coll ++ [r]

/-- Modelled from the spec: the chromadb collection (not part of src/) is a
named set of records; collection.add validates that the parallel lists have
equal lengths (else a validation error, writing nothing) and upserts each
record by id. -/
def collAdd (coll : List ChunkRecord) (ids : List String)
    (embeddings : List (List ℚ)) (documents : List String)
    (metadatas : List ChunkMeta) : Except StoreErr (List ChunkRecord) :=
  if ids.length = embeddings.length ∧ ids.length = documents.length ∧
      ids.length = metadatas.length then
    .ok ((mkRecords ids embeddings documents metadatas).foldl upsertOne coll)
  else
    .error .validationError

/-- Modelled from the spec: collection.delete removes the records whose id is
listed; absent ids are ignored without error (zero effect). -/
def collDelete (coll : List ChunkRecord) (ids : List String) :
    List ChunkRecord :=
  coll.filter (fun r => ¬ ids.contains r.id)

/-- Modelled from the spec: collection.get returns the records whose id is
listed, in collection order. -/
def collGet (coll : List ChunkRecord) (ids : List String) : List ChunkRecord :=
  coll.filter (fun r => ids.contains r.id)

/-- Modelled from the spec: one similarity query of the backing index, which
is an opaque approximate-nearest-neighbor engine over the configured metric
(cosine distance); the metric is a parameter dist of the model.  Candidates
optionally restricted by a metadata filter are ranked by ascending distance to
the query vector and the first nResults are returned as
(text, metadata, distance) triples. -/
def queryOne (dist : List ℚ → List ℚ → ℚ) (coll : List ChunkRecord)
    (flt : Option (ChunkMeta → Bool)) (nResults : Nat) (q : List ℚ) :
    List (String × ChunkMeta × ℚ) :=
  let cands := match flt with
    | none => coll
    | some p => coll.filter (fun r => p r.metadata)
  let scored := cands.map (fun r => (r.document, r.metadata, dist q r.embedding))
  (List.insertionSort (fun a b => a.2.2 ≤ b.2.2) scored).take nResults

/-- Modelled from the spec: collection.query ranks each query embedding
separately, returning one result list per query. -/
def collQuery (dist : List ℚ → List ℚ → ℚ) (coll : List ChunkRecord)
    (queryEmbeddings : List (List ℚ)) (nResults : Nat)
    (flt : Option (ChunkMeta → Bool)) : List (List (String × ChunkMeta × ℚ)) :=
  queryEmbeddings.map (queryOne dist coll flt nResults)

/-- Id derivation of VectorStore.add_documents: source, an underscore, and the
chunk index. -/
def deriveId (m : ChunkMeta) : String :=
  m.source ++ "_" ++ toString m.chunk_index

/-- VectorStore.add_documents: derive one id per metadata entry and hand the
parallel lists to collection.add. -/
def add_documents (coll : List ChunkRecord) (chunks : List String)
    (embeddings : List (List ℚ)) (metadata : List ChunkMeta) :
    Except StoreErr (List ChunkRecord) :=
  collAdd coll (metadata.map deriveId) embeddings chunks metadata

/-- VectorStore.search_similar: query the collection with the single query
embedding and return the first (and only) result set. -/
def search_similar (dist : List ℚ → List ℚ → ℚ) (coll : List ChunkRecord)
    (query_embedding : List ℚ) (n_results : Nat)
    (metadata_filter : Option (ChunkMeta → Bool)) :
    Except StoreErr (List (String × ChunkMeta × ℚ)) :=
  match collQuery dist coll [query_embedding] n_results metadata_filter with
  | res :: _ => .ok res
  | [] => .error .notFoundError

/-- VectorStore.delete_document: delete the single id from the collection. -/
def delete_document (coll : List ChunkRecord) (document_id : String) :
    List ChunkRecord :=
  collDelete coll [document_id]

/-- VectorStore.get_document_by_id: fetch the records with the given id and
take the first one; when none matches the lookup fails (the specification
names this NotFoundError). -/
def get_document_by_id (coll : List ChunkRecord) (document_id : String) :
    Except StoreErr (String × ChunkMeta) :=
  match collGet coll [document_id] with
  | r :: _ => .ok (r.document, r.metadata)
  | [] => .error .notFoundError

/-- Lookup of a record by id in the modelled collection. -/
def findById (coll : List ChunkRecord) (i : String) : Option ChunkRecord :=
  coll.find? (fun r => r.id = i)

/-- Content on which the chunking loop never advances for chunkSize 3 and
overlap 2: the period found at index 2 gives splitPoint 2 and the cursor
returns to 2 - 2 = 0. -/
def loopContentSmall : List Char := ['a', 'b', '.', 'd', 'e', 'f', 'g', 'h']

/-- Content on which the chunking loop never advances for the default sizes
1000 and 200: the period at index 300 is found from cursor 100 in the window
[100, 1100), gives splitPoint 300, and the cursor returns to 300 - 200 = 100. -/
def loopContentDefault : List Char :=
  List.replicate 300 'x' ++ ['.'] ++ List.replicate 801 'x'

/-- Squared euclidean distance over rational vectors; an executable metric,
used to instantiate the abstract distance parameter of the store model on
concrete inputs. -/
def sqDist (v w : List ℚ) : ℚ :=
  ((v.zip w).map (fun p => (p.1 - p.2) ^ 2)).sum

/-- The split point chosen by one iteration of the chunking loop when the
window does not reach the end of the content. -/
def chunkSplit (chunkSize : Nat) (content : List Char) (start : Int) : Int :=
  let lastPeriod := pyRfind content '.' start (start + chunkSize)
  let lastNewline := pyRfind content '\n' start (start + chunkSize)
  let sp0 := max lastPeriod lastNewline
  if sp0 = -1 ∨ sp0 ≤ start then start + chunkSize else sp0

/-- C1: the claim states that for every configuration with
0 <= overlap < chunkSize the chunking loop terminates.  The code refutes it:
with chunkSize 3 and overlap 2 on the content "ab.defgh" the found boundary
satisfies splitPoint > start but splitPoint - overlap does not advance the
cursor, so the loop runs forever and the embedding returns none for every
fuel. -/
theorem chunk_document_diverges_on_valid_config :
    ∀ fuel, chunk_document 3 2 loopContentSmall fuel = none := by
  intro fuel
  induction fuel with
  | zero => rfl
  | succ f ih =>
    have step : chunk_document 3 2 loopContentSmall (f + 1)
        = match chunk_document 3 2 loopContentSmall f with
          | none => none
          | some rest => some (pySlice loopContentSmall 0 2 :: rest) := rfl
    rw [step, ih]

/-- C2: the claim states that for every non-empty content and valid
configuration the chunker returns at least one chunk covering every offset.
The code refutes it at the default configuration chunkSize 1000, overlap 200:
on 300 x characters, a period, and 801 x characters the cursor reaches 100,
finds the period at 300 again on every iteration and never advances, so
chunk_document never returns a result at all. -/
theorem chunk_document_diverges_on_default_config :
    ∀ fuel, chunk_document 1000 200 loopContentDefault fuel = none := by
  have h100 : ∀ f, chunkLoop 1000 200 loopContentDefault 100 f = none := by
    intro f
    induction f with
    | zero => rfl
    | succ g ih =>
      have step : chunkLoop 1000 200 loopContentDefault 100 (g + 1)
          = match chunkLoop 1000 200 loopContentDefault 100 g with
            | none => none
            | some rest => some (pySlice loopContentDefault 100 300 :: rest) := rfl
      rw [step, ih]
  intro fuel
  cases fuel with
  | zero => rfl
  | succ f =>
    have step : chunk_document 1000 200 loopContentDefault (f + 1)
        = match chunkLoop 1000 200 loopContentDefault 100 f with
          | none => none
          | some rest => some (pySlice loopContentDefault 0 300 :: rest) := rfl
    rw [step, h100 f]

/-- C9: the cursor advances to splitPoint - overlap after each split, so
consecutive chunks share material; concretely, chunking chunkSize + 500 = 1500
dots at the default configuration yields the two chunks of 999 and 701 dots,
at least two chunks, and consecutive chunks overlap in at least
overlap - 1 = 199 characters. -/
theorem chunk_document_overlapping_chunks :
    chunk_document defaultChunkSize defaultChunkOverlap
        (List.replicate 1500 '.') 2
      = some [List.replicate 999 '.', List.replicate 701 '.']
    ∧ 2 ≤ [List.replicate 999 '.', List.replicate 701 '.'].length
    ∧ defaultChunkOverlap - 1 ≤
        (List.replicate 999 '.').length + (List.replicate 701 '.').length
          - (List.replicate 1500 '.').length := by
  refine ⟨rfl, by decide, by decide⟩

/-- C8: chunking the empty string yields the empty sequence, and chunking any
non-empty content shorter than chunkSize yields exactly the one-element
sequence holding the entire content. -/
theorem chunk_document_empty_and_small (chunkSize overlap : Nat)
    (content : List Char) (fuel : Nat) (hfuel : 1 ≤ fuel) :
    chunk_document chunkSize overlap [] fuel = some []
    ∧ (content ≠ [] → content.length < chunkSize →
        chunk_document chunkSize overlap content fuel = some [content]) := by
  obtain ⟨f, rfl⟩ : ∃ f, fuel = f + 1 :=
    ⟨fuel - 1, (Nat.succ_pred_eq_of_pos hfuel).symm⟩
  constructor
  · show chunkLoop chunkSize overlap [] 0 (f + 1) = some []
    simp [chunkLoop]
  · intro hne hlen
    show chunkLoop chunkSize overlap content 0 (f + 1) = some [content]
    have h0 : (0 : Int) < content.length := by
      exact_mod_cast List.length_pos.mpr hne
    have hle : (content.length : Int) ≤ 0 + chunkSize := by
      omega
    simp only [chunkLoop, if_pos h0, if_pos hle]
    simp [pySliceFrom, pyNorm]

theorem chunk_document_empty_and_small_witness :
    chunk_document 1000 200 [] 1 = some []
    ∧ chunk_document 1000 200 ['h', 'i'] 1 = some [['h', 'i']] :=
  ⟨(chunk_document_empty_and_small 1000 200 ['h', 'i'] 1 (by decide)).1,
   (chunk_document_empty_and_small 1000 200 ['h', 'i'] 1 (by decide)).2
     (by decide) (by decide)⟩

/-- C4: the embedding gateway requests one embedding per text in order; when
every request succeeds the result has exactly one vector per text with
position i corresponding to text i, and when the call fails it fails with the
underlying provider error at some text whose predecessors all succeeded, and
no partial result is returned. -/
theorem generate_embeddings_spec {E : Type} (provider : String → Except E (List ℚ))
    (texts : List String) :
    (∀ vs, generate_embeddings provider texts = .ok vs →
      vs.length = texts.length ∧
        ∀ (i : Nat) (hi : i < texts.length) (hi2 : i < vs.length),
          provider (texts.get ⟨i, hi⟩) = .ok (vs.get ⟨i, hi2⟩))
    ∧ (∀ e, generate_embeddings provider texts = .error e →
      ∃ (i : Nat) (hi : i < texts.length),
        provider (texts.get ⟨i, hi⟩) = .error e
        ∧ ∀ (j : Nat), j < i → ∀ (hj2 : j < texts.length),
            ∃ v, provider (texts.get ⟨j, hj2⟩) = .ok v) := by
  induction texts with
  | nil =>
    constructor
    · intro vs h
      simp only [generate_embeddings] at h
      cases h
      simp
    · intro e h
      simp only [generate_embeddings] at h
      cases h
  | cons t ts ih =>
    constructor
    · intro vs h
      simp only [generate_embeddings] at h
      cases hp : provider t with
      | error e0 => rw [hp] at h; cases h
      | ok v =>
        rw [hp] at h
        cases hr : generate_embeddings provider ts with
        | error e1 => rw [hr] at h; cases h
        | ok ws =>
          rw [hr] at h
          cases h
          obtain ⟨hlen, hidx⟩ := ih.1 ws hr
          refine ⟨by simpa using hlen, ?_⟩
          intro i hi hi2
          cases i with
          | zero => simpa using hp
          | succ i' =>
            have hi' : i' < ts.length := by simpa using hi
            have hi2' : i' < ws.length := by simpa using hi2
            simpa using hidx i' hi' hi2'
    · intro e h
      simp only [generate_embeddings] at h
      cases hp : provider t with
      | error e0 =>
        rw [hp] at h
        cases h
        exact ⟨0, by simp, by simpa using hp, by omega⟩
      | ok v =>
        rw [hp] at h
        cases hr : generate_embeddings provider ts with
        | error e1 =>
          rw [hr] at h
          cases h
          obtain ⟨i, hi, herr, hpre⟩ := ih.2 _ hr
          refine ⟨i + 1, by simpa using Nat.succ_lt_succ hi, by simpa using herr, ?_⟩
          intro j hj hj2
          cases j with
          | zero => exact ⟨v, by simpa using hp⟩
          | succ j' =>
            have hj' : j' < i := by omega
            have hj2' : j' < ts.length := by simpa using hj2
            simpa using hpre j' hj' hj2'
        | ok ws => rw [hr] at h; cases h

theorem generate_embeddings_spec_witness :
    ([[(1 : ℚ)]] : List (List ℚ)).length = (["a"] : List String).length
    ∧ ∀ (i : Nat) (hi : i < (["a"] : List String).length)
        (hi2 : i < ([[(1 : ℚ)]] : List (List ℚ)).length),
        (fun _ : String => (Except.ok [(1 : ℚ)] : Except Unit (List ℚ)))
            ((["a"] : List String).get ⟨i, hi⟩)
          = .ok (([[(1 : ℚ)]] : List (List ℚ)).get ⟨i, hi2⟩) :=
  (generate_embeddings_spec (fun _ => .ok [(1 : ℚ)]) ["a"]).1 [[(1 : ℚ)]] rfl

theorem chunkLoop_succ (cs ov : Nat) (content : List Char) (start : Int) (f : Nat) :
    chunkLoop cs ov content start (f + 1) =
      if start < (content.length : Int) then
        if (content.length : Int) ≤ start + cs then
          some [pySliceFrom content start]
        else
          match chunkLoop cs ov content (chunkSplit cs content start - ov) f with
          | none => none
          | some rest => some (pySlice content start (chunkSplit cs content start) :: rest)
      else some [] := rfl

theorem pyNorm_le (L : Nat) (i : Int) : pyNorm L i ≤ L := by
  simp only [pyNorm]
  split <;> omega

theorem pyNorm_le_self (L : Nat) (i : Int) (h : 0 ≤ i) : (pyNorm L i : Int) ≤ i := by
  simp only [pyNorm]
  split <;> omega

theorem rfindGo_cases (c : Char) (na nb : Nat) :
    ∀ (xs : List Char) (i : Nat) (acc : Int),
      rfindGo c na nb xs i acc = acc
      ∨ (0 ≤ rfindGo c na nb xs i acc ∧ rfindGo c na nb xs i acc < (nb : Int)) := by
  intro xs
  induction xs with
  | nil => intro i acc; left; rfl
  | cons x xs ih =>
    intro i acc
    have hstep : rfindGo c na nb (x :: xs) i acc
        = rfindGo c na nb xs (i + 1)
            (if x = c ∧ na ≤ i ∧ i < nb then (i : Int) else acc) := rfl
    rw [hstep]
    rcases ih (i + 1) (if x = c ∧ na ≤ i ∧ i < nb then (i : Int) else acc) with h | h
    · rw [h]
      by_cases hc : x = c ∧ na ≤ i ∧ i < nb
      · right
        rw [if_pos hc]
        exact ⟨by omega, by exact_mod_cast Int.ofNat_lt.mpr hc.2.2⟩
      · left
        rw [if_neg hc]
    · right
      exact h

theorem pyRfind_cases (s : List Char) (c : Char) (a b : Int) :
    pyRfind s c a b = -1
    ∨ (0 ≤ pyRfind s c a b ∧ pyRfind s c a b < (pyNorm s.length b : Int)) :=
  rfindGo_cases c (pyNorm s.length a) (pyNorm s.length b) s 0 (-1)

theorem chunkSplit_bounds (cs : Nat) (content : List Char) (start : Int)
    (ov : Nat) (hov : ov < cs) (hs : -(ov : Int) ≤ start) :
    0 ≤ chunkSplit cs content start ∧ chunkSplit cs content start ≤ start + cs := by
  simp only [chunkSplit]
  split
  · constructor <;> omega
  · rename_i hcond
    push_neg at hcond
    obtain ⟨hne, hgt⟩ := hcond
    rcases pyRfind_cases content '.' start (start + cs) with hp | hp <;>
      rcases pyRfind_cases content '\n' start (start + cs) with hn | hn
    · exact absurd (by rw [hp, hn]; rfl) hne
    all_goals
      have hle : (pyNorm content.length (start + cs) : Int) ≤ start + cs :=
        pyNorm_le_self _ _ (by omega)
      constructor
      · simp only [le_max_iff]
        omega
      · simp only [max_le_iff]
        omega

theorem length_pySliceFrom (s : List Char) (a : Int) :
    (pySliceFrom s a).length = s.length - pyNorm s.length a := by
  simp [pySliceFrom]

theorem length_pySlice (s : List Char) (a b : Int) :
    (pySlice s a b).length = min (pyNorm s.length b) s.length - pyNorm s.length a := by
  simp [pySlice]

theorem chunkLoop_chunk_le (chunkSize overlap : Nat) (hov : overlap < chunkSize)
    (content : List Char) :
    ∀ (fuel : Nat) (start : Int), -(overlap : Int) ≤ start →
      ∀ res, chunkLoop chunkSize overlap content start fuel = some res →
        ∀ ch ∈ res, ch.length ≤ chunkSize := by
  intro fuel
  induction fuel with
  | zero =>
    intro start hs res h
    cases h
  | succ f ih =>
    intro start hs res h
    rw [chunkLoop_succ] at h
    by_cases h1 : start < (content.length : Int)
    · rw [if_pos h1] at h
      by_cases h2 : (content.length : Int) ≤ start + chunkSize
      · rw [if_pos h2] at h
        cases h
        intro ch hch
        simp only [List.mem_singleton] at hch
        subst hch
        rw [length_pySliceFrom]
        simp only [pyNorm]
        split <;> omega
      · rw [if_neg h2] at h
        obtain ⟨hsp0, hsple⟩ := chunkSplit_bounds chunkSize content start overlap hov hs
        cases hrec : chunkLoop chunkSize overlap content
            (chunkSplit chunkSize content start - overlap) f with
        | none => rw [hrec] at h; cases h
        | some rest =>
          rw [hrec] at h
          cases h
          intro ch hch
          rcases List.mem_cons.mp hch with hch | hch
          · subst hch
            rw [length_pySlice]
            have hb := pyNorm_le content.length (chunkSplit chunkSize content start)
            have hb2 := pyNorm_le_self content.length (chunkSplit chunkSize content start) hsp0
            simp only [pyNorm]
            split <;> split <;> omega
          · exact ih (chunkSplit chunkSize content start - overlap) (by omega) rest hrec ch hch
    · rw [if_neg h1] at h
      cases h
      intro ch hch
      cases hch

/-- C10: every chunk returned by chunk_document is at most chunkSize
characters long, for any content and any configuration with
overlap < chunkSize. -/
theorem chunk_document_chunk_size_bound (chunkSize overlap : Nat)
    (hov : overlap < chunkSize) (content : List Char) (fuel : Nat)
    (res : List (List Char))
    (h : chunk_document chunkSize overlap content fuel = some res) :
    ∀ ch ∈ res, ch.length ≤ chunkSize :=
  chunkLoop_chunk_le chunkSize overlap hov content fuel 0 (by omega) res h

theorem chunk_document_chunk_size_bound_witness :
    200 < 1000
    ∧ chunk_document 1000 200 ['a'] 1 = some [['a']]
    ∧ ∀ ch ∈ [['a']], ch.length ≤ 1000 :=
  ⟨by decide, rfl,
   chunk_document_chunk_size_bound 1000 200 (by decide) ['a'] 1 [['a']] rfl⟩

theorem upsertOne_of_mem (coll : List ChunkRecord) (r : ChunkRecord)
    (hex : ∃ x ∈ coll, x.id = r.id) :
    (upsertOne coll r).map (fun x => x.id) = coll.map (fun x => x.id)
    ∧ findById (upsertOne coll r) r.id = some r := by
  have hany : coll.any (fun x => x.id = r.id) = true := by
    obtain ⟨x, hx, hid⟩ := hex
    exact List.any_eq_true.mpr ⟨x, hx, by simp [hid]⟩
  constructor
  · simp only [upsertOne, hany, if_true, List.map_map]
    apply List.map_congr_left
    intro x _
    by_cases hx : x.id = r.id
    · simp [hx]
    · simp [hx]
  · simp only [upsertOne, hany, if_true, findById]
    obtain ⟨x, hx, hid⟩ := hex
    clear hany
    induction coll with
    | nil => cases hx
    | cons y ys ih =>
      simp only [List.map_cons]
      by_cases hyid : y.id = r.id
      · rw [List.find?_cons_of_pos]
        · simp [hyid]
        · simp [hyid]
      · rw [List.find?_cons_of_neg]
        · rcases List.mem_cons.mp hx with hy | hy
          · exact absurd (hy ▸ hid) hyid
          · exact ih hy
        · simp [hyid]

theorem upsertOne_of_not_mem (coll : List ChunkRecord) (r : ChunkRecord)
    (hnex : ¬ ∃ x ∈ coll, x.id = r.id) :
    upsertOne coll r = coll ++ [r] := by
  have hany : coll.any (fun x => x.id = r.id) = false := by
    rw [← Bool.not_eq_true]
    intro hc
    obtain ⟨x, hx, hid⟩ := List.any_eq_true.mp hc
    exact hnex ⟨x, hx, by simpa using hid⟩
  simp [upsertOne, hany]

theorem mkRecords_get (is : List String) :
    ∀ (vs : List (List ℚ)) (ds : List String) (ms : List ChunkMeta) (i : Nat)
      (him : i < (mkRecords is vs ds ms).length) (h1 : i < is.length)
      (h2 : i < vs.length) (h3 : i < ds.length) (h4 : i < ms.length),
      (mkRecords is vs ds ms).get ⟨i, him⟩
        = ⟨is.get ⟨i, h1⟩, vs.get ⟨i, h2⟩, ds.get ⟨i, h3⟩, ms.get ⟨i, h4⟩⟩ := by
  induction is with
  | nil => intro vs ds ms i him h1 h2 h3 h4; exact absurd h1 (by simp)
  | cons a as ih =>
    intro vs ds ms i him h1 h2 h3 h4
    cases vs with
    | nil => exact absurd h2 (by simp)
    | cons v vs =>
      cases ds with
      | nil => exact absurd h3 (by simp)
      | cons d ds =>
        cases ms with
        | nil => exact absurd h4 (by simp)
        | cons m ms =>
          cases i with
          | zero => rfl
          | succ i' =>
            have him' : i' < (mkRecords as vs ds ms).length := by
              simpa [mkRecords] using him
            have := ih vs ds ms i' him' (by simpa using h1) (by simpa using h2)
              (by simpa using h3) (by simpa using h4)
            simpa [mkRecords] using this

theorem mkRecords_length (is : List String) :
    ∀ (vs : List (List ℚ)) (ds : List String) (ms : List ChunkMeta),
      is.length = vs.length → is.length = ds.length → is.length = ms.length →
      (mkRecords is vs ds ms).length = is.length := by
  induction is with
  | nil => intro vs ds ms _ _ _; rfl
  | cons a as ih =>
    intro vs ds ms hv hd hm
    cases vs with
    | nil => simp at hv
    | cons v vs =>
      cases ds with
      | nil => simp at hd
      | cons d ds =>
        cases ms with
        | nil => simp at hm
        | cons m ms =>
          simp only [mkRecords, List.length_cons]
          rw [ih vs ds ms (by simpa using hv) (by simpa using hd)
            (by simpa using hm)]

theorem mkRecords_map_id (is : List String) :
    ∀ (vs : List (List ℚ)) (ds : List String) (ms : List ChunkMeta),
      is.length = vs.length → is.length = ds.length → is.length = ms.length →
      (mkRecords is vs ds ms).map (fun r => r.id) = is := by
  induction is with
  | nil => intro vs ds ms _ _ _; rfl
  | cons a as ih =>
    intro vs ds ms hv hd hm
    cases vs with
    | nil => simp at hv
    | cons v vs =>
      cases ds with
      | nil => simp at hd
      | cons d ds =>
        cases ms with
        | nil => simp at hm
        | cons m ms =>
          simp only [mkRecords, List.map_cons]
          rw [ih vs ds ms (by simpa using hv) (by simpa using hd)
            (by simpa using hm)]

theorem findById_upsertOne_self (s : List ChunkRecord) (r : ChunkRecord) :
    findById (upsertOne s r) r.id = some r := by
  by_cases hex : ∃ x ∈ s, x.id = r.id
  · exact (upsertOne_of_mem s r hex).2
  · rw [upsertOne_of_not_mem s r hex]
    have hnone : s.find? (fun x => decide (x.id = r.id)) = none := by
      apply List.find?_eq_none.mpr
      intro x hx
      simp only [decide_eq_true_eq]
      exact fun hxid => hex ⟨x, hx, hxid⟩
    simp only [findById, List.find?_append, hnone, Option.none_or]
    simp [List.find?]

theorem findById_upsertOne_other (s : List ChunkRecord) (r' : ChunkRecord)
    (j : String) (hne : r'.id ≠ j) :
    findById (upsertOne s r') j = findById s j := by
  have hmap : ∀ ys : List ChunkRecord,
      List.find? (fun x => decide (x.id = j))
          (ys.map (fun x => if x.id = r'.id then r' else x))
        = List.find? (fun x => decide (x.id = j)) ys := by
    intro ys
    induction ys with
    | nil => rfl
    | cons y ys ih =>
      simp only [List.map_cons]
      by_cases hyj : y.id = j
      · have hyr : ¬ y.id = r'.id := fun hc => hne (by rw [← hc, hyj])
        rw [if_neg hyr, List.find?_cons_of_pos _ (by simp [hyj]),
          List.find?_cons_of_pos _ (by simp [hyj])]
      · by_cases hyr : y.id = r'.id
        · rw [if_pos hyr, List.find?_cons_of_neg _ (by simp [hne]),
            List.find?_cons_of_neg _ (by simp [hyj])]
          exact ih
        · rw [if_neg hyr, List.find?_cons_of_neg _ (by simp [hyj]),
            List.find?_cons_of_neg _ (by simp [hyj])]
          exact ih
  by_cases hex : ∃ x ∈ s, x.id = r'.id
  · have hany : s.any (fun x => x.id = r'.id) = true := by
      obtain ⟨x, hx, hid⟩ := hex
      exact List.any_eq_true.mpr ⟨x, hx, by simp [hid]⟩
    simp only [upsertOne, hany, if_true, findById]
    exact hmap s
  · rw [upsertOne_of_not_mem s r' hex]
    simp only [findById, List.find?_append]
    have hone : List.find? (fun x => decide (x.id = j)) [r'] = none := by
      simp [List.find?, hne]
    rw [hone]
    simp

theorem findById_foldl_not_mem (rs : List ChunkRecord) :
    ∀ (s : List ChunkRecord) (j : String), j ∉ rs.map (fun r => r.id) →
      findById (rs.foldl upsertOne s) j = findById s j := by
  induction rs with
  | nil => intro s j _; rfl
  | cons r rest ih =>
    intro s j hj
    simp only [List.map_cons, List.mem_cons] at hj
    push_neg at hj
    simp only [List.foldl_cons]
    rw [ih (upsertOne s r) j hj.2,
      findById_upsertOne_other s r j (fun hc => hj.1 hc.symm)]

theorem findById_foldl_mem_nodup (rs : List ChunkRecord) :
    ∀ (s : List ChunkRecord), (rs.map (fun r => r.id)).Nodup →
      ∀ r ∈ rs, findById (rs.foldl upsertOne s) r.id = some r := by
  induction rs with
  | nil => intro s _ r hr; cases hr
  | cons a rest ih =>
    intro s hnodup r hr
    simp only [List.map_cons, List.nodup_cons] at hnodup
    simp only [List.foldl_cons]
    rcases List.mem_cons.mp hr with hra | hra
    · subst hra
      rw [findById_foldl_not_mem rest (upsertOne s r) r.id hnodup.1,
        findById_upsertOne_self]
    · exact ih (upsertOne s a) hnodup.2 r hra

/-- C3: add_documents derives each batch record's id as source, underscore,
chunk index from its own metadata entry and writes the batch by sequentially
upserting those records; upserting overwrites an existing id in place (same id
sequence, lookup returns the new vector, text and metadata) and otherwise
appends a new record; consequently, when the derived ids are distinct, after
the add every derived id looks up to exactly its new record, and ids outside
the batch are untouched. -/
theorem add_documents_upsert (coll : List ChunkRecord) (chunks : List String)
    (embs : List (List ℚ)) (metas : List ChunkMeta) (coll' : List ChunkRecord)
    (h : add_documents coll chunks embs metas = .ok coll') :
    coll' = (mkRecords (metas.map deriveId) embs chunks metas).foldl upsertOne coll
    ∧ (∀ (i : Nat) (him : i < (mkRecords (metas.map deriveId) embs chunks metas).length)
        (hi : i < metas.length) (hie : i < embs.length) (hic : i < chunks.length),
        (mkRecords (metas.map deriveId) embs chunks metas).get ⟨i, him⟩
          = ⟨deriveId (metas.get ⟨i, hi⟩), embs.get ⟨i, hie⟩,
             chunks.get ⟨i, hic⟩, metas.get ⟨i, hi⟩⟩)
    ∧ (∀ (s : List ChunkRecord) (r : ChunkRecord),
        ((∃ x ∈ s, x.id = r.id) →
          (upsertOne s r).map (fun x => x.id) = s.map (fun x => x.id)
          ∧ findById (upsertOne s r) r.id = some r)
        ∧ ((¬ ∃ x ∈ s, x.id = r.id) → upsertOne s r = s ++ [r]))
    ∧ ((metas.map deriveId).Nodup →
        ∀ (i : Nat) (hi : i < metas.length) (hie : i < embs.length)
          (hic : i < chunks.length),
          findById coll' (deriveId (metas.get ⟨i, hi⟩))
            = some ⟨deriveId (metas.get ⟨i, hi⟩), embs.get ⟨i, hie⟩,
                    chunks.get ⟨i, hic⟩, metas.get ⟨i, hi⟩⟩)
    ∧ (∀ j : String, j ∉ metas.map deriveId →
        findById coll' j = findById coll j) := by
  have h' := h
  simp only [add_documents, collAdd] at h'
  by_cases hc : (metas.map deriveId).length = embs.length
      ∧ (metas.map deriveId).length = chunks.length
      ∧ (metas.map deriveId).length = metas.length
  · rw [if_pos hc] at h'
    have hcoll' : coll'
        = (mkRecords (metas.map deriveId) embs chunks metas).foldl upsertOne coll :=
      ((Except.ok.injEq _ _).mp h').symm
    have hlenv : (metas.map deriveId).length = embs.length := hc.1
    have hlenc : (metas.map deriveId).length = chunks.length := hc.2.1
    have hlenm : (metas.map deriveId).length = metas.length := hc.2.2
    have hmapid : (mkRecords (metas.map deriveId) embs chunks metas).map
        (fun r => r.id) = metas.map deriveId :=
      mkRecords_map_id _ embs chunks metas hlenv hlenc hlenm
    have hget : ∀ (i : Nat)
        (him : i < (mkRecords (metas.map deriveId) embs chunks metas).length)
        (hi : i < metas.length) (hie : i < embs.length) (hic : i < chunks.length),
        (mkRecords (metas.map deriveId) embs chunks metas).get ⟨i, him⟩
          = ⟨deriveId (metas.get ⟨i, hi⟩), embs.get ⟨i, hie⟩,
             chunks.get ⟨i, hic⟩, metas.get ⟨i, hi⟩⟩ := by
      intro i him hi hie hic
      rw [mkRecords_get (metas.map deriveId) embs chunks metas i him
        (by simpa using hi) hie hic hi]
      congr 1
      simp only [List.get_eq_getElem, List.getElem_map]
    refine ⟨hcoll', hget, ?_, ?_, ?_⟩
    · intro s r
      exact ⟨fun hex => upsertOne_of_mem s r hex,
        fun hnex => upsertOne_of_not_mem s r hnex⟩
    · intro hnodup i hi hie hic
      have him : i < (mkRecords (metas.map deriveId) embs chunks metas).length := by
        rw [mkRecords_length _ embs chunks metas hlenv hlenc hlenm]
        simpa using hi
      have hmem := List.get_mem (mkRecords (metas.map deriveId) embs chunks metas) i him
      have hnodup' : ((mkRecords (metas.map deriveId) embs chunks metas).map
          (fun r => r.id)).Nodup := by
        rw [hmapid]; exact hnodup
      have hfind := findById_foldl_mem_nodup
        (mkRecords (metas.map deriveId) embs chunks metas) coll hnodup' _ hmem
      rw [hget i him hi hie hic] at hfind
      rw [hcoll']
      exact hfind
    · intro j hj
      rw [hcoll']
      apply findById_foldl_not_mem _ coll j
      rw [hmapid]
      exact hj
  · rw [if_neg hc] at h'
    cases h'

theorem add_documents_upsert_witness :
    findById
        [(⟨"a_0", [(7 : ℚ)], "new", ⟨"a", 0, "t1"⟩⟩ : ChunkRecord),
         ⟨"b_3", [(8 : ℚ)], "c2", ⟨"b", 3, "t2"⟩⟩]
        (deriveId ⟨"a", 0, "t1"⟩)
      = some ⟨deriveId ⟨"a", 0, "t1"⟩, [(7 : ℚ)], "new", ⟨"a", 0, "t1"⟩⟩
    ∧ findById
        [(⟨"a_0", [(7 : ℚ)], "new", ⟨"a", 0, "t1"⟩⟩ : ChunkRecord),
         ⟨"b_3", [(8 : ℚ)], "c2", ⟨"b", 3, "t2"⟩⟩]
        (deriveId ⟨"b", 3, "t2"⟩)
      = some ⟨deriveId ⟨"b", 3, "t2"⟩, [(8 : ℚ)], "c2", ⟨"b", 3, "t2"⟩⟩ :=
  ⟨(add_documents_upsert [⟨"a_0", [(5 : ℚ)], "old", ⟨"a", 0, "t0"⟩⟩]
      ["new", "c2"] [[(7 : ℚ)], [(8 : ℚ)]] [⟨"a", 0, "t1"⟩, ⟨"b", 3, "t2"⟩]
      [⟨"a_0", [(7 : ℚ)], "new", ⟨"a", 0, "t1"⟩⟩,
       ⟨"b_3", [(8 : ℚ)], "c2", ⟨"b", 3, "t2"⟩⟩]
      rfl).2.2.2.1 (by decide) 0 (by decide) (by decide) (by decide),
   (add_documents_upsert [⟨"a_0", [(5 : ℚ)], "old", ⟨"a", 0, "t0"⟩⟩]
      ["new", "c2"] [[(7 : ℚ)], [(8 : ℚ)]] [⟨"a", 0, "t1"⟩, ⟨"b", 3, "t2"⟩]
      [⟨"a_0", [(7 : ℚ)], "new", ⟨"a", 0, "t1"⟩⟩,
       ⟨"b_3", [(8 : ℚ)], "c2", ⟨"b", 3, "t2"⟩⟩]
      rfl).2.2.2.1 (by decide) 1 (by decide) (by decide) (by decide)⟩

/-- C5: add_documents fails with a validation error, writing nothing, whenever
the chunk, embedding and metadata lists do not all have the same length. -/
theorem add_documents_length_validation (coll : List ChunkRecord)
    (chunks : List String) (embeddings : List (List ℚ))
    (metadata : List ChunkMeta)
    (h : ¬ (chunks.length = embeddings.length
        ∧ embeddings.length = metadata.length)) :
    add_documents coll chunks embeddings metadata = .error .validationError := by
  simp only [add_documents, collAdd, List.length_map]
  split
  · rename_i hc
    exact absurd ⟨by omega, by omega⟩ h
  · rfl

theorem add_documents_length_validation_witness :
    (¬ ((["c"] : List String).length = ([] : List (List ℚ)).length
        ∧ ([] : List (List ℚ)).length = ([] : List ChunkMeta).length))
    ∧ add_documents [] ["c"] [] [] = .error .validationError :=
  ⟨by decide, add_documents_length_validation [] ["c"] [] [] (by decide)⟩

/-- C6: after deleting an id, looking that id up fails with the not-found
error; deleting an id that is not present leaves the collection unchanged and
raises no error. -/
theorem delete_then_get_fails_and_unknown_delete_noop
    (coll : List ChunkRecord) (i : String) :
    get_document_by_id (delete_document coll i) i = .error .notFoundError
    ∧ ((∀ r ∈ coll, r.id ≠ i) → delete_document coll i = coll) := by
  constructor
  · simp only [get_document_by_id, delete_document, collGet, collDelete]
    have hnil : List.filter (fun r => [i].contains r.id)
        (List.filter (fun r => decide ¬([i].contains r.id = true)) coll) = [] := by
      rw [List.filter_filter]
      apply List.filter_eq_nil_iff.mpr
      intro a _
      by_cases hc : [i].contains a.id = true <;> simp [hc]
    rw [hnil]
  · intro hnone
    simp only [delete_document, collDelete]
    apply List.filter_eq_self.mpr
    intro r hr
    simpa using hnone r hr

theorem delete_then_get_fails_witness :
    get_document_by_id
        (delete_document [(⟨"a_0", [(1 : ℚ)], "t", ⟨"a", 0, "u"⟩⟩ : ChunkRecord)]
          "b_1") "b_1"
      = .error .notFoundError
    ∧ delete_document [(⟨"a_0", [(1 : ℚ)], "t", ⟨"a", 0, "u"⟩⟩ : ChunkRecord)] "b_1"
      = [(⟨"a_0", [(1 : ℚ)], "t", ⟨"a", 0, "u"⟩⟩ : ChunkRecord)] :=
  ⟨(delete_then_get_fails_and_unknown_delete_noop
      [⟨"a_0", [(1 : ℚ)], "t", ⟨"a", 0, "u"⟩⟩] "b_1").1,
   (delete_then_get_fails_and_unknown_delete_noop
      [⟨"a_0", [(1 : ℚ)], "t", ⟨"a", 0, "u"⟩⟩] "b_1").2 (by decide)⟩

/-- C7: search_similar returns at most n_results triples ordered by
non-decreasing distance; when n_results is at most the collection size it
returns exactly n_results triples; and querying with the stored embedding of a
record whose distance to itself is minimal (as cosine distance is) puts that
minimum distance first, attained by that record, which is itself the unique
first result when its distance is strictly minimal. -/
theorem search_similar_ranking (dist : List ℚ → List ℚ → ℚ)
    (coll : List ChunkRecord) (q : List ℚ) (k : Nat)
    (l : List (String × ChunkMeta × ℚ))
    (h : search_similar dist coll q k none = .ok l) :
    l.length ≤ k
    ∧ l.Pairwise (fun a b => a.2.2 ≤ b.2.2)
    ∧ (k ≤ coll.length → l.length = k)
    ∧ (∀ x ∈ coll, q = x.embedding →
        (∀ r ∈ coll, dist q x.embedding ≤ dist q r.embedding) → 1 ≤ k →
        ∃ hd tl, l = hd :: tl
          ∧ hd.2.2 = dist q x.embedding
          ∧ (∀ p ∈ l, hd.2.2 ≤ p.2.2)
          ∧ ((∀ r ∈ coll, r ≠ x → dist q x.embedding < dist q r.embedding) →
              hd = (x.document, x.metadata, dist q x.embedding))) := by
  haveI htot : IsTotal (String × ChunkMeta × ℚ)
      (fun a b => a.2.2 ≤ b.2.2) := ⟨fun a b => le_total a.2.2 b.2.2⟩
  haveI htrans : IsTrans (String × ChunkMeta × ℚ)
      (fun a b => a.2.2 ≤ b.2.2) := ⟨fun _ _ _ hab hbc => le_trans hab hbc⟩
  have hl : l = (List.insertionSort (fun a b => a.2.2 ≤ b.2.2)
      (coll.map (fun r => (r.document, r.metadata, dist q r.embedding)))).take k := by
    simp only [search_similar, collQuery, List.map_cons, List.map_nil,
      queryOne] at h
    exact ((Except.ok.injEq _ _).mp h).symm
  set scored := coll.map (fun r => (r.document, r.metadata, dist q r.embedding))
    with hscored
  set srt := List.insertionSort (fun a b => a.2.2 ≤ b.2.2) scored with hsrt
  have hsorted : srt.Pairwise (fun a b => a.2.2 ≤ b.2.2) :=
    List.sorted_insertionSort _ scored
  have hlen : srt.length = coll.length := by
    rw [hsrt, List.length_insertionSort, hscored, List.length_map]
  have hmemsrt : ∀ p, p ∈ srt ↔ p ∈ scored := by
    intro p
    rw [hsrt]
    exact List.mem_insertionSort _
  refine ⟨?_, ?_, ?_, ?_⟩
  · rw [hl, List.length_take]
    omega
  · rw [hl]
    exact hsorted.sublist (List.take_sublist k srt)
  · intro hk
    rw [hl, List.length_take]
    omega
  · intro x hx hq hmin hk
    have hxs : (x.document, x.metadata, dist q x.embedding) ∈ scored :=
      List.mem_map.mpr ⟨x, hx, rfl⟩
    have hsne : srt ≠ [] := by
      intro hnil
      rw [← hmemsrt] at hxs
      rw [hnil] at hxs
      cases hxs
    obtain ⟨hd, tl', hcons⟩ := List.exists_cons_of_ne_nil hsne
    obtain ⟨k', rfl⟩ : ∃ k', k = k' + 1 :=
      ⟨k - 1, (Nat.succ_pred_eq_of_pos hk).symm⟩
    have hltake : l = hd :: tl'.take k' := by
      rw [hl, hcons, List.take_succ_cons]
    have hdmin : ∀ p ∈ srt, hd.2.2 ≤ p.2.2 := by
      intro p hp
      rw [hcons] at hp hsorted
      rcases List.mem_cons.mp hp with hp | hp
      · rw [hp]
      · exact (List.pairwise_cons.mp hsorted).1 p hp
    have hdsrc : ∃ r ∈ coll, hd = (r.document, r.metadata, dist q r.embedding) := by
      have : hd ∈ scored := (hmemsrt hd).mp (hcons ▸ List.mem_cons_self hd tl')
      obtain ⟨r, hr, hrop⟩ := List.mem_map.mp this
      exact ⟨r, hr, hrop.symm⟩
    have hdval : hd.2.2 = dist q x.embedding := by
      obtain ⟨r, hr, hrop⟩ := hdsrc
      have h1 : dist q x.embedding ≤ hd.2.2 := by
        rw [hrop]
        exact hmin r hr
      have h2 : hd.2.2 ≤ dist q x.embedding :=
        hdmin _ ((hmemsrt _).mpr hxs)
      exact le_antisymm h2 h1
    refine ⟨hd, tl'.take k', hltake, hdval, ?_, ?_⟩
    · intro p hp
      apply hdmin
      rw [hl] at hp
      exact (List.take_sublist _ srt).subset hp
    · intro hstrict
      obtain ⟨r, hr, hrop⟩ := hdsrc
      by_cases hrx : r = x
      · rw [hrop, hrx, hq]
      · exfalso
        have : dist q x.embedding < dist q r.embedding := hstrict r hr hrx
        rw [hrop] at hdval
        simp only at hdval
        rw [hdval] at this
        exact lt_irrefl _ this

theorem search_similar_ranking_witness :
    ([(("t0", (⟨"a", 0, "u"⟩ : ChunkMeta), (0 : ℚ)))] :
        List (String × ChunkMeta × ℚ)).length ≤ 1 :=
  (search_similar_ranking sqDist
    [⟨"a_0", [(0 : ℚ)], "t0", ⟨"a", 0, "u"⟩⟩,
     ⟨"a_1", [(1 : ℚ)], "t1", ⟨"a", 1, "u"⟩⟩]
    [(0 : ℚ)] 1 [("t0", ⟨"a", 0, "u"⟩, (0 : ℚ))] (by with_unfolding_all rfl)).1
